import Mathlib

/-!
Shallow embedding of the subject-expansion and endpoint-binding core of the
PowerDNS/itsy repository (files `topo.go` and `service.go`), with theorems
checking the natural-language specification against it.

Strings are modelled by Lean `String` (a list of Unicode scalars).  Go compares
strings byte-wise over UTF-8; since UTF-8 byte order coincides with scalar
lexicographic order, the comparator `charListLt` below is a faithful model of
Go's `<` on strings.
-/

namespace Itsy

/-- `Name` mirrors the Go struct `Name` of `topo.go`:
full name, base, extra (suffix after base), topology scope, and the `All`
broadcast flag. -/
structure Name where
  Full  : String
  Base  : String
  Extra : String
  Topo  : String
  All   : Bool
deriving Repr, DecidableEq

/-- Go `join(a, b string) string` of `topo.go`. -/
def join (a b : String) : String :=
  if a = "" then b
  else if b = "" then a
  else a ++ "." ++ b

/-- Go `newName(base, middle, topo string, isAll bool) Name` of `topo.go`,
with the same incremental construction of `extra` and `full`. -/
def newName (base middle topo : String) (isAll : Bool) : Name :=
  let extra := ""
  let extra := if middle ≠ "" then join extra middle else extra
  let extra := if topo ≠ "" then join extra topo else extra
  let full := extra
  let full := if base ≠ "" then join base extra else full
  { Full := full, Base := base, Extra := extra, Topo := topo, All := isAll }

/-- One step of `names[n.Full] = n`: the Go map keyed by `Full` is modelled as
an association list with replace-on-collision (last write wins). -/
def addName (names : List Name) (base middle topo : String) (isAll : Bool) : List Name :=
  let n := newName base middle topo isAll
  names.filter (fun m => decide (m.Full ≠ n.Full)) ++ [n]

/-- Characters strictly before the last `'.'` of the list, or `none` when the
list holds no `'.'`; models `strings.LastIndexByte(t, '.')` followed by
`t[:idx]` (the byte `'.'` is ASCII, so the last `'.'` byte of the UTF-8
encoding is the last `'.'` scalar). -/
def beforeLastDot : List Char → Option (List Char)
  | [] => none
  | c :: cs =>
    match beforeLastDot cs with
    | some l => some (c :: l)
    | none => if c = '.' then some [] else none

theorem beforeLastDot_length : ∀ (l r : List Char), beforeLastDot l = some r →
    r.length < l.length := by
  intro l
  induction l with
  | nil => intro r h; simp [beforeLastDot] at h
  | cons c cs ih =>
    intro r h
    unfold beforeLastDot at h
    split at h
    next l' heq =>
      cases h
      have := ih l' heq
      simp only [List.length_cons]
      omega
    next =>
      split at h
      · cases h; simp
      · cases h

/-- Go's `idx := strings.LastIndexByte(t, '.'); t = t[:idx]` as a partial
string operation: `none` when `idx < 0` (loop break). -/
def dropLastSeg (t : String) : Option String :=
  (beforeLastDot t.data).map String.mk

theorem dropLastSeg_length {t t' : String} (h : dropLastSeg t = some t') :
    t'.length < t.length := by
  simp only [dropLastSeg, Option.map_eq_some'] at h
  obtain ⟨l, hl, rfl⟩ := h
  exact beforeLastDot_length _ _ hl

/-- The sequence of values taken by the loop variable `t` of the inner `for`
loop of `ExpandTopology`: the label followed by the iterated removal of its
last dot-delimited segment.  Structured with explicit fuel so the definition
is structurally recursive and reduces; `t.length + 1` steps always suffice
because each iteration strictly shortens `t` (`dropLastSeg_length`). -/
def iterPrefixesF : Nat → String → List String
  | 0, _ => []
  | fuel + 1, t =>
    t :: match dropLastSeg t with
      | none => []
      | some t' => iterPrefixesF fuel t'

def iterPrefixes (t : String) : List String :=
  iterPrefixesF (t.length + 1) t

/-- The body of `for _, t := range topo` in `ExpandTopology` for one non-empty
label `t`: add the `all`/`any` names for `t` and every shorter prefix.  Fuel
as in `iterPrefixesF`. -/
def labelLoopF (base : String) : Nat → String → List Name → List Name
  | 0, _, names => names
  | fuel + 1, t, names =>
    let names := addName names base "all" t true
    let names := addName names base "any" t false
    match dropLastSeg t with
    | none => names
    | some t' => labelLoopF base fuel t' names

def labelLoop (base t : String) (names : List Name) : List Name :=
  labelLoopF base (t.length + 1) t names

/-- Byte-wise (equivalently: Unicode-scalar-wise) lexicographic `<` on
character lists; models Go's `<` on strings, used by `NameList.Less`. -/
def charListLt : List Char → List Char → Bool
  | [], [] => false
  | [], _ :: _ => true
  | _ :: _, [] => false
  | a :: as, b :: bs =>
    if a < b then true
    else if b < a then false
    else charListLt as bs

/-- `NameList.Less(i, j)` of `topo.go`: compare `Full` names. -/
def nameLess (a b : Name) : Bool :=
  charListLt a.Full.data b.Full.data

def sortInsert (n : Name) : List Name → List Name
  | [] => [n]
  | m :: ms => if nameLess n m then n :: m :: ms else m :: sortInsert n ms

/-- `sort.Sort(result)` of `ExpandTopology`.  Go's sort is unstable, but the
`Full` keys of the map values are pairwise distinct, so the ascending order is
unique and any correct sort models it. -/
def sortNames : List Name → List Name
  | [] => []
  | n :: ns => sortInsert n (sortNames ns)

/-- `ExpandTopology(base string, topo []string, id string) NameList` of
`topo.go`: insert the bare/all/any names, the id name when `id != ""`, then
all prefixes of each non-empty label, dedup by `Full` (map semantics), sort. -/
def ExpandTopology (base : String) (topo : List String) (id : String) : List Name :=
  let names : List Name := []
  let names := addName names base "" "" false
  let names := addName names base "all" "" true
  let names := addName names base "any" "" false
  let names := if id ≠ "" then addName names base "id" id false else names
  let names := topo.foldl (fun acc t => if t = "" then acc else labelLoop base t acc) names
  sortNames names

/-- One endpoint registration, holding the arguments the `AddHandler` loop of
`service.go` passes to `micro` for one `Name`: the dash-separated endpoint
name, the subject (`micro.WithEndpointSubject`), the queue group
(`micro.WithEndpointQueueGroup`) and the `"topo"` metadata entry
(`micro.WithEndpointMetadata`). -/
structure Registration where
  endpointName : String
  subject : String
  queueGroup : String
  topoMeta : String
deriving Repr, DecidableEq

/-- `strings.Replace(name.Full, ".", "-", -1)`: the pattern is a single
character, so replacing all occurrences is a per-character map. -/
def dashName (s : String) : String :=
  ⟨s.data.map (fun c => if c = '.' then '-' else c)⟩

/-- The body of the `AddHandler` registration loop of `service.go` for one
`Name`: `q := "q"; if name.All { q = "id." + svcID }`, subject `name.Full`,
metadata `{"topo": name.Topo}`. -/
def mkRegistration (svcID : String) (n : Name) : Registration :=
  let q := "q"
  let q := if n.All then "id." ++ svcID else q
  { endpointName := dashName n.Full
    subject := n.Full
    queueGroup := q
    topoMeta := n.Topo }

/-- The registration loop of `Service.AddHandler`: one `AddEndpoint` call per
name, in order; on the first error the loop returns that error unchanged and
attempts nothing further.  The bus is modelled by the function `sub`.  Returns
`(attempted, created, error)`: the registrations passed to the bus, those the
bus accepted (never rolled back), and the error result of the loop. -/
def addEndpoints (sub : Registration → Except ε Unit) (svcID : String) :
    List Name → List Registration × List Registration × Option ε
  | [] => ([], [], none)
  | n :: rest =>
    let r := mkRegistration svcID n
    match sub r with
    | .error e => ([r], [], some e)
    | .ok _ =>
      let (att, created, res) := addEndpoints sub svcID rest
      (r :: att, r :: created, res)

/-- `Service.AddHandler` after prefix/group setup: the loop runs over
`ExpandTopology(name, s.topo, svcID)`. -/
def AddHandlerModel (sub : Registration → Except ε Unit) (name : String)
    (topo : List String) (svcID : String) :
    List Registration × List Registration × Option ε :=
  addEndpoints sub svcID (ExpandTopology name topo svcID)

/-- Spec-side: `p` is a leading substring of `s` ("starts with"). -/
def strPrefix (p s : String) : Prop := p.data <+: s.data

/-- Spec-side: the closed set of shapes any name inserted by `ExpandTopology`
can take (the unscoped `all`/`any` names are the `p = ""` instances). -/
def Shape (base id : String) (n : Name) : Prop :=
  n = newName base "" "" false ∨
  (∃ p, n = newName base "all" p true) ∨
  (∃ p, n = newName base "any" p false) ∨
  (id ≠ "" ∧ n = newName base "id" id false)

/-- Spec-side: exact characterization of the names `ExpandTopology base topo id`
returns — the bare/all/any names, the id name when `id ≠ ""`, and the
`all`/`any` names of every iterated prefix of every non-empty label. -/
def Fam (base : String) (topo : List String) (id : String) (n : Name) : Prop :=
  n = newName base "" "" false ∨
  n = newName base "all" "" true ∨
  n = newName base "any" "" false ∨
  (id ≠ "" ∧ n = newName base "id" id false) ∨
  (∃ t, t ∈ topo ∧ t ≠ "" ∧ ∃ p, p ∈ iterPrefixes t ∧
    (n = newName base "all" p true ∨ n = newName base "any" p false))

/-! ### Basic string facts -/

theorem string_data_inj {s t : String} (h : s.data = t.data) : s = t := by
  cases s; cases t; exact congrArg String.mk h

theorem string_data_append (s t : String) : (s ++ t).data = s.data ++ t.data := by
  cases s; cases t; rfl

theorem join_empty_left (b : String) : join "" b = b := by
  simp [join]

theorem join_empty_right (a : String) : join a "" = a := by
  by_cases h : a = "" <;> simp [join, h]

theorem join_eq_append {a b : String} (ha : a ≠ "") (hb : b ≠ "") :
    join a b = a ++ "." ++ b := by
  simp [join, ha, hb]

theorem newName_eq (b m t : String) (a : Bool) :
    newName b m t a = ⟨join b (join m t), b, join m t, t, a⟩ := by
  by_cases hm : m = "" <;> by_cases ht : t = "" <;> by_cases hb : b = "" <;>
    simp [newName, join, hm, ht, hb]

theorem newName_Full (b m t : String) (a : Bool) :
    (newName b m t a).Full = join b (join m t) := by
  rw [newName_eq]

theorem newName_Extra (b m t : String) (a : Bool) :
    (newName b m t a).Extra = join m t := by
  rw [newName_eq]

theorem newName_Topo (b m t : String) (a : Bool) : (newName b m t a).Topo = t := rfl

theorem newName_All (b m t : String) (a : Bool) : (newName b m t a).All = a := rfl

theorem newName_Base (b m t : String) (a : Bool) : (newName b m t a).Base = b := rfl

theorem join_all_data (p : String) :
    (join "all" p).data = 'a' :: 'l' :: 'l' :: (if p = "" then [] else '.' :: p.data) := by
  by_cases hp : p = ""
  · simp [join, hp]
  · have : join "all" p = ("all." : String) ++ p := by
      rw [join_eq_append (by decide) hp]; rfl
    rw [this, string_data_append]
    simp [hp]

theorem join_any_data (p : String) :
    (join "any" p).data = 'a' :: 'n' :: 'y' :: (if p = "" then [] else '.' :: p.data) := by
  by_cases hp : p = ""
  · simp [join, hp]
  · have : join "any" p = ("any." : String) ++ p := by
      rw [join_eq_append (by decide) hp]; rfl
    rw [this, string_data_append]
    simp [hp]

theorem join_id_data {i : String} (hi : i ≠ "") :
    (join "id" i).data = 'i' :: 'd' :: '.' :: i.data := by
  have : join "id" i = ("id." : String) ++ i := by
    rw [join_eq_append (by decide) hi]; rfl
  rw [this, string_data_append]
  rfl

theorem join_right_inj {b e₁ e₂ : String} (h : join b e₁ = join b e₂) : e₁ = e₂ := by
  by_cases hb : b = ""
  · subst hb; rwa [join_empty_left, join_empty_left] at h
  · by_cases h₁ : e₁ = "" <;> by_cases h₂ : e₂ = ""
    · rw [h₁, h₂]
    · exfalso
      rw [h₁, join_empty_right, join_eq_append hb h₂] at h
      have := congrArg (fun s => s.data.length) h
      simp only [string_data_append] at this
      simp at this
    · exfalso
      rw [h₂, join_empty_right, join_eq_append hb h₁] at h
      have := congrArg (fun s => s.data.length) h
      simp only [string_data_append] at this
      simp at this
    · rw [join_eq_append hb h₁, join_eq_append hb h₂] at h
      have hd := congrArg String.data h
      simp only [string_data_append] at hd
      exact string_data_inj (List.append_cancel_left hd)

/-! ### Order facts for the byte-wise comparator -/

theorem charListLt_asymm : ∀ {l₁ l₂ : List Char},
    charListLt l₁ l₂ = true → charListLt l₂ l₁ = false := by
  intro l₁
  induction l₁ with
  | nil => intro l₂ h; cases l₂ <;> simp_all [charListLt]
  | cons a as ih =>
    intro l₂ h
    cases l₂ with
    | nil => simp_all [charListLt]
    | cons b bs =>
      simp only [charListLt] at h ⊢
      rcases lt_trichotomy a b with hab | hab | hab
      · simp [hab, not_lt_of_gt hab]
      · subst hab
        simp only [lt_irrefl, if_false] at h ⊢
        exact ih h
      · simp [hab, not_lt_of_gt hab] at h

theorem charListLt_trans : ∀ {l₁ l₂ l₃ : List Char},
    charListLt l₁ l₂ = true → charListLt l₂ l₃ = true → charListLt l₁ l₃ = true := by
  intro l₁
  induction l₁ with
  | nil => intro l₂ l₃ h₁ h₂; cases l₂ <;> cases l₃ <;> simp_all [charListLt]
  | cons a as ih =>
    intro l₂ l₃ h₁ h₂
    cases l₂ with
    | nil => simp_all [charListLt]
    | cons b bs =>
      cases l₃ with
      | nil => simp_all [charListLt]
      | cons c cs =>
        simp only [charListLt] at h₁ h₂ ⊢
        rcases lt_trichotomy a b with hab | hab | hab
        · rcases lt_trichotomy b c with hbc | hbc | hbc
          · simp [lt_trans hab hbc]
          · subst hbc; simp [hab]
          · simp [hbc, not_lt_of_gt hbc] at h₂
        · subst hab
          rcases lt_trichotomy a c with hac | hac | hac
          · simp [hac]
          · subst hac
            simp only [lt_irrefl, if_false] at h₁ h₂ ⊢
            exact ih h₁ h₂
          · simp [hac, not_lt_of_gt hac] at h₂
        · simp [hab, not_lt_of_gt hab] at h₁

theorem charListLt_conn : ∀ {l₁ l₂ : List Char},
    charListLt l₁ l₂ = false → charListLt l₂ l₁ = false → l₁ = l₂ := by
  intro l₁
  induction l₁ with
  | nil => intro l₂ h₁ _; cases l₂ <;> simp_all [charListLt]
  | cons a as ih =>
    intro l₂ h₁ h₂
    cases l₂ with
    | nil => simp_all [charListLt]
    | cons b bs =>
      simp only [charListLt] at h₁ h₂
      rcases lt_trichotomy a b with hab | hab | hab
      · simp [hab] at h₁
      · subst hab
        simp only [lt_irrefl, if_false] at h₁ h₂
        exact congrArg (a :: ·) (ih h₁ h₂)
      · simp [hab] at h₂

/-! ### Discrimination of the inserted name shapes -/

theorem join_all_ne_empty (p : String) : join "all" p ≠ "" := by
  intro h
  have hd : (join "all" p).data = ([] : List Char) := congrArg String.data h
  rw [join_all_data] at hd
  exact List.noConfusion hd

theorem join_any_ne_empty (p : String) : join "any" p ≠ "" := by
  intro h
  have hd : (join "any" p).data = ([] : List Char) := congrArg String.data h
  rw [join_any_data] at hd
  exact List.noConfusion hd

theorem join_id_ne_empty {i : String} (hi : i ≠ "") : join "id" i ≠ "" := by
  intro h
  have hd : (join "id" i).data = ([] : List Char) := congrArg String.data h
  rw [join_id_data hi] at hd
  exact List.noConfusion hd

theorem join_all_ne_any (p q : String) : join "all" p ≠ join "any" q := by
  intro h
  have hd := congrArg String.data h
  rw [join_all_data, join_any_data] at hd
  injection hd with h1 h2
  injection h2 with h3 h4
  exact absurd h3 (by decide)

theorem join_all_ne_id {p i : String} (hi : i ≠ "") : join "all" p ≠ join "id" i := by
  intro h
  have hd := congrArg String.data h
  rw [join_all_data, join_id_data hi] at hd
  injection hd with h1 h2
  exact absurd h1 (by decide)

theorem join_any_ne_id {p i : String} (hi : i ≠ "") : join "any" p ≠ join "id" i := by
  intro h
  have hd := congrArg String.data h
  rw [join_any_data, join_id_data hi] at hd
  injection hd with h1 h2
  exact absurd h1 (by decide)

theorem join_all_inj {p q : String} (h : join "all" p = join "all" q) : p = q := by
  have hd := congrArg String.data h
  rw [join_all_data, join_all_data] at hd
  injection hd with h1 h2
  injection h2 with h3 h4
  injection h4 with h5 h6
  by_cases hp : p = "" <;> by_cases hq : q = "" <;> simp [hp, hq] at h6 ⊢
  exact string_data_inj h6

theorem join_any_inj {p q : String} (h : join "any" p = join "any" q) : p = q := by
  have hd := congrArg String.data h
  rw [join_any_data, join_any_data] at hd
  injection hd with h1 h2
  injection h2 with h3 h4
  injection h4 with h5 h6
  by_cases hp : p = "" <;> by_cases hq : q = "" <;> simp [hp, hq] at h6 ⊢
  exact string_data_inj h6

/-- Any two names `ExpandTopology` can insert that share a `Full` name are the
same name: the `Full` string determines the whole record within `Shape`. -/
theorem shape_inj {base id : String} {n n' : Name} (hn : Shape base id n)
    (hn' : Shape base id n') (h : n.Full = n'.Full) : n = n' := by
  have key : ∀ {e e' : String}, join base e = join base e' → e = e' := fun he => join_right_inj he
  rcases hn with rfl | ⟨p, rfl⟩ | ⟨p, rfl⟩ | ⟨hid, rfl⟩ <;>
    rcases hn' with rfl | ⟨q, rfl⟩ | ⟨q, rfl⟩ | ⟨hid', rfl⟩ <;>
      simp only [newName_Full] at h <;> (try have he := key h)
  · rfl
  · rw [join_empty_left] at he
    exact absurd he.symm (join_all_ne_empty q)
  · rw [join_empty_left] at he
    exact absurd he.symm (join_any_ne_empty q)
  · rw [join_empty_left] at he
    exact absurd he.symm (join_id_ne_empty hid')
  · rw [join_empty_left] at he
    exact absurd he (join_all_ne_empty p)
  · rw [join_all_inj he]
  · exact absurd he (join_all_ne_any p q)
  · exact absurd he (join_all_ne_id hid')
  · rw [join_empty_left] at he
    exact absurd he (join_any_ne_empty p)
  · exact absurd he.symm (join_all_ne_any q p)
  · rw [join_any_inj he]
  · exact absurd he (join_any_ne_id hid')
  · rw [join_empty_left] at he
    exact absurd he (join_id_ne_empty hid)
  · exact absurd he.symm (join_all_ne_id hid)
  · exact absurd he.symm (join_any_ne_id hid)
  · rfl

/-! ### Membership through the insertion sequence -/

theorem mem_addName {x : Name} {l : List Name} {b m t : String} {a : Bool} :
    x ∈ addName l b m t a ↔
      (x ∈ l ∧ x.Full ≠ (newName b m t a).Full) ∨ x = newName b m t a := by
  simp [addName, List.mem_filter, List.mem_append]

theorem addName_self (l : List Name) (b m t : String) (a : Bool) :
    newName b m t a ∈ addName l b m t a := by
  rw [mem_addName]; right; rfl

theorem addName_preserve {base id : String} {x : Name} {l : List Name} {m t : String}
    {a : Bool} (hx : Shape base id x) (hins : Shape base id (newName base m t a))
    (hmem : x ∈ l) : x ∈ addName l base m t a := by
  by_cases h : x.Full = (newName base m t a).Full
  · rw [mem_addName]; right; exact shape_inj hx hins h
  · rw [mem_addName]; left; exact ⟨hmem, h⟩

theorem addName_pairwise {l : List Name} {b m t : String} {a : Bool}
    (h : l.Pairwise (fun x y => x.Full ≠ y.Full)) :
    (addName l b m t a).Pairwise (fun x y => x.Full ≠ y.Full) := by
  unfold addName
  refine List.pairwise_append.mpr ⟨h.filter _, List.pairwise_singleton _ _, ?_⟩
  intro x hx y hy
  rw [List.mem_singleton] at hy
  subst hy
  rcases List.mem_filter.mp hx with ⟨-, hne⟩
  simpa using hne

theorem iterPrefixesF_congr : ∀ (f f' : Nat) (t : String), t.length < f → t.length < f' →
    iterPrefixesF f t = iterPrefixesF f' t := by
  intro f
  induction f with
  | zero => intro f' t h _; omega
  | succ f ih =>
    intro f' t h h'
    cases f' with
    | zero => omega
    | succ f' =>
      simp only [iterPrefixesF]
      congr 1
      cases hd : dropLastSeg t with
      | none => rfl
      | some t' =>
        have := dropLastSeg_length hd
        exact ih f' t' (by omega) (by omega)

theorem iterPrefixes_cons {t t' : String} (hd : dropLastSeg t = some t') :
    iterPrefixes t = t :: iterPrefixes t' := by
  have hlt := dropLastSeg_length hd
  unfold iterPrefixes
  simp only [iterPrefixesF, hd]
  congr 1
  exact iterPrefixesF_congr t.length (String.length t' + 1) t' (by omega) (by omega)

theorem iterPrefixes_single {t : String} (hd : dropLastSeg t = none) :
    iterPrefixes t = [t] := by
  unfold iterPrefixes
  simp only [iterPrefixesF, hd]

theorem self_mem_iterPrefixes (t : String) : t ∈ iterPrefixes t := by
  cases hd : dropLastSeg t with
  | none => rw [iterPrefixes_single hd]; exact List.mem_singleton_self t
  | some t' => rw [iterPrefixes_cons hd]; exact List.mem_cons_self t _

theorem labelLoopF_mem {base : String} : ∀ {fuel : Nat} {t : String} {acc : List Name}
    {x : Name}, t.length < fuel → x ∈ labelLoopF base fuel t acc →
    x ∈ acc ∨ ∃ p, p ∈ iterPrefixes t ∧
      (x = newName base "all" p true ∨ x = newName base "any" p false) := by
  intro fuel
  induction fuel with
  | zero => intro t acc x h; omega
  | succ fuel ih =>
    intro t acc x hf hx
    simp only [labelLoopF] at hx
    have step : x ∈ addName (addName acc base "all" t true) base "any" t false →
        x ∈ acc ∨ ∃ p, p ∈ iterPrefixes t ∧
          (x = newName base "all" p true ∨ x = newName base "any" p false) := by
      intro hx'
      rcases mem_addName.mp hx' with ⟨hx'', _⟩ | rfl
      · rcases mem_addName.mp hx'' with ⟨hmem, _⟩ | rfl
        · exact Or.inl hmem
        · exact Or.inr ⟨t, self_mem_iterPrefixes t, Or.inl rfl⟩
      · exact Or.inr ⟨t, self_mem_iterPrefixes t, Or.inr rfl⟩
    cases hd : dropLastSeg t with
    | none =>
      rw [hd] at hx
      exact step hx
    | some t' =>
      rw [hd] at hx
      have hlt := dropLastSeg_length hd
      rcases ih (by omega) hx with hx' | ⟨p, hp, hshape⟩
      · exact step hx'
      · refine Or.inr ⟨p, ?_, hshape⟩
        rw [iterPrefixes_cons hd]
        exact List.mem_cons_of_mem _ hp

theorem labelLoopF_preserve {base id : String} {x : Name} (hx : Shape base id x) :
    ∀ {fuel : Nat} {t : String} {acc : List Name}, x ∈ acc →
    x ∈ labelLoopF base fuel t acc := by
  intro fuel
  induction fuel with
  | zero => intro t acc h; exact h
  | succ fuel ih =>
    intro t acc hmem
    simp only [labelLoopF]
    have h2 : x ∈ addName (addName acc base "all" t true) base "any" t false :=
      addName_preserve hx (Or.inr (Or.inr (Or.inl ⟨t, rfl⟩)))
        (addName_preserve hx (Or.inr (Or.inl ⟨t, rfl⟩)) hmem)
    cases hd : dropLastSeg t with
    | none => exact h2
    | some t' => exact ih h2

theorem labelLoopF_adds (base id : String) : ∀ {fuel : Nat} {t : String} {acc : List Name},
    t.length < fuel → ∀ p ∈ iterPrefixes t,
      newName base "all" p true ∈ labelLoopF base fuel t acc ∧
      newName base "any" p false ∈ labelLoopF base fuel t acc := by
  intro fuel
  induction fuel with
  | zero => intro t acc h; omega
  | succ fuel ih =>
    intro t acc hf p hp
    simp only [labelLoopF]
    have hallS : Shape base id (newName base "all" t true) := Or.inr (Or.inl ⟨t, rfl⟩)
    have hanyS : Shape base id (newName base "any" t false) := Or.inr (Or.inr (Or.inl ⟨t, rfl⟩))
    have hself : newName base "all" t true ∈
        addName (addName acc base "all" t true) base "any" t false :=
      addName_preserve hallS hanyS (addName_self _ _ _ _ _)
    have hself' : newName base "any" t false ∈
        addName (addName acc base "all" t true) base "any" t false :=
      addName_self _ _ _ _ _
    cases hd : dropLastSeg t with
    | none =>
      rw [iterPrefixes_single hd, List.mem_singleton] at hp
      subst hp
      exact ⟨hself, hself'⟩
    | some t' =>
      rw [iterPrefixes_cons hd, List.mem_cons] at hp
      have hlt := dropLastSeg_length hd
      rcases hp with rfl | hp
      · exact ⟨labelLoopF_preserve hallS hself,
          labelLoopF_preserve hanyS hself'⟩
      · exact ih (by omega) p hp

theorem labelLoopF_pairwise {base : String} : ∀ {fuel : Nat} {t : String} {acc : List Name},
    acc.Pairwise (fun x y => x.Full ≠ y.Full) →
    (labelLoopF base fuel t acc).Pairwise (fun x y => x.Full ≠ y.Full) := by
  intro fuel
  induction fuel with
  | zero => intro t acc h; exact h
  | succ fuel ih =>
    intro t acc h
    simp only [labelLoopF]
    cases hd : dropLastSeg t with
    | none => exact addName_pairwise (addName_pairwise h)
    | some t' => exact ih (addName_pairwise (addName_pairwise h))

/-! ### The sort step -/

theorem sortInsert_perm (n : Name) : ∀ (l : List Name), (sortInsert n l).Perm (n :: l) := by
  intro l
  induction l with
  | nil => exact List.Perm.refl _
  | cons m ms ih =>
    simp only [sortInsert]
    by_cases h : nameLess n m = true
    · rw [if_pos h]
    · rw [if_neg h]
      exact (List.Perm.cons m ih).trans (List.Perm.swap n m ms)

theorem sortNames_perm : ∀ (l : List Name), (sortNames l).Perm l := by
  intro l
  induction l with
  | nil => exact List.Perm.refl _
  | cons n ns ih => exact (sortInsert_perm n (sortNames ns)).trans (List.Perm.cons n ih)

theorem mem_sortNames {x : Name} {l : List Name} : x ∈ sortNames l ↔ x ∈ l :=
  (sortNames_perm l).mem_iff

theorem sortInsert_sorted {n : Name} : ∀ {l : List Name},
    l.Pairwise (fun a b => nameLess b a = false) →
    (sortInsert n l).Pairwise (fun a b => nameLess b a = false) := by
  intro l
  induction l with
  | nil => intro _; exact List.pairwise_singleton _ _
  | cons m ms ih =>
    intro h
    rcases List.pairwise_cons.mp h with ⟨hm, hms⟩
    simp only [sortInsert]
    by_cases hc : nameLess n m = true
    · rw [if_pos hc]
      refine List.pairwise_cons.mpr ⟨?_, h⟩
      intro y hy
      rcases List.mem_cons.mp hy with rfl | hy'
      · exact charListLt_asymm hc
      · by_contra hyn
        rw [Bool.not_eq_false] at hyn
        have : nameLess y m = true := charListLt_trans hyn hc
        rw [hm y hy'] at this
        exact Bool.noConfusion this
    · rw [if_neg hc]
      refine List.pairwise_cons.mpr ⟨?_, ih hms⟩
      intro y hy
      have hy' := (sortInsert_perm n ms).mem_iff.mp hy
      rcases List.mem_cons.mp hy' with rfl | hy''
      · exact Bool.not_eq_true _ ▸ Bool.of_not_eq_true hc
      · exact hm y hy''

theorem sortNames_sorted : ∀ (l : List Name),
    (sortNames l).Pairwise (fun a b => nameLess b a = false) := by
  intro l
  induction l with
  | nil => exact List.Pairwise.nil
  | cons n ns ih => exact sortInsert_sorted ih

/-! ### Soundness and completeness of the expansion -/

theorem Fam.shape {base : String} {topo : List String} {id : String} {x : Name}
    (h : Fam base topo id x) : Shape base id x := by
  rcases h with rfl | rfl | rfl | ⟨hid, rfl⟩ | ⟨t, _, _, p, _, rfl | rfl⟩
  · exact Or.inl rfl
  · exact Or.inr (Or.inl ⟨"", rfl⟩)
  · exact Or.inr (Or.inr (Or.inl ⟨"", rfl⟩))
  · exact Or.inr (Or.inr (Or.inr ⟨hid, rfl⟩))
  · exact Or.inr (Or.inl ⟨p, rfl⟩)
  · exact Or.inr (Or.inr (Or.inl ⟨p, rfl⟩))

theorem foldl_mem {base : String} : ∀ {ts : List String} {acc : List Name} {x : Name},
    x ∈ ts.foldl (fun acc t => if t = "" then acc else labelLoop base t acc) acc →
    x ∈ acc ∨ ∃ t, t ∈ ts ∧ t ≠ "" ∧ ∃ p, p ∈ iterPrefixes t ∧
      (x = newName base "all" p true ∨ x = newName base "any" p false) := by
  intro ts
  induction ts with
  | nil => intro acc x h; exact Or.inl h
  | cons t ts ih =>
    intro acc x h
    rw [List.foldl_cons] at h
    rcases ih h with hstep | ⟨t', ht', htne, p, hp, hsh⟩
    · by_cases hte : t = ""
      · rw [if_pos hte] at hstep
        exact Or.inl hstep
      · rw [if_neg hte] at hstep
        unfold labelLoop at hstep
        rcases labelLoopF_mem (Nat.lt_succ_self _) hstep with hmem | ⟨p, hp, hsh⟩
        · exact Or.inl hmem
        · exact Or.inr ⟨t, List.mem_cons_self t ts, hte, p, hp, hsh⟩
    · exact Or.inr ⟨t', List.mem_cons_of_mem t ht', htne, p, hp, hsh⟩

theorem foldl_preserve (base id : String) {x : Name} (hx : Shape base id x) :
    ∀ {ts : List String} {acc : List Name}, x ∈ acc →
    x ∈ ts.foldl (fun acc t => if t = "" then acc else labelLoop base t acc) acc := by
  intro ts
  induction ts with
  | nil => intro acc h; exact h
  | cons t ts ih =>
    intro acc h
    rw [List.foldl_cons]
    apply ih
    by_cases hte : t = ""
    · rwa [if_pos hte]
    · rw [if_neg hte]
      unfold labelLoop
      exact labelLoopF_preserve hx h

theorem foldl_adds (base id : String) : ∀ {ts : List String} {acc : List Name} {t : String},
    t ∈ ts → t ≠ "" → ∀ p ∈ iterPrefixes t,
    newName base "all" p true ∈
      ts.foldl (fun acc t => if t = "" then acc else labelLoop base t acc) acc ∧
    newName base "any" p false ∈
      ts.foldl (fun acc t => if t = "" then acc else labelLoop base t acc) acc := by
  intro ts
  induction ts with
  | nil => intro acc t h; cases h
  | cons t' ts ih =>
    intro acc t ht htne p hp
    rw [List.foldl_cons]
    rcases List.mem_cons.mp ht with rfl | ht'
    · rw [if_neg htne]
      unfold labelLoop
      exact ⟨foldl_preserve base id (Or.inr (Or.inl ⟨p, rfl⟩))
          (labelLoopF_adds base id (Nat.lt_succ_self _) p hp).1,
        foldl_preserve base id (Or.inr (Or.inr (Or.inl ⟨p, rfl⟩)))
          (labelLoopF_adds base id (Nat.lt_succ_self _) p hp).2⟩
    · exact ih ht' htne p hp

theorem foldl_pairwise {base : String} : ∀ {ts : List String} {acc : List Name},
    acc.Pairwise (fun x y => x.Full ≠ y.Full) →
    (ts.foldl (fun acc t => if t = "" then acc else labelLoop base t acc) acc).Pairwise
      (fun x y => x.Full ≠ y.Full) := by
  intro ts
  induction ts with
  | nil => intro acc h; exact h
  | cons t ts ih =>
    intro acc h
    rw [List.foldl_cons]
    apply ih
    by_cases hte : t = ""
    · rwa [if_pos hte]
    · rw [if_neg hte]
      unfold labelLoop
      exact labelLoopF_pairwise h

/-- Soundness: everything `ExpandTopology` returns is one of the family of
names described by `Fam`. -/
theorem expand_sound {base : String} {topo : List String} {id : String} {x : Name}
    (hx : x ∈ ExpandTopology base topo id) : Fam base topo id x := by
  simp only [ExpandTopology] at hx
  rw [mem_sortNames] at hx
  rcases foldl_mem hx with hinit | ⟨t, ht, htne, p, hp, hsh⟩
  · have hbase : x ∈ addName (addName (addName [] base "" "" false) base "all" "" true)
        base "any" "" false → Fam base topo id x := by
      intro h2
      rcases mem_addName.mp h2 with ⟨h1, _⟩ | rfl
      · rcases mem_addName.mp h1 with ⟨h0, _⟩ | rfl
        · rcases mem_addName.mp h0 with ⟨h, _⟩ | rfl
          · cases h
          · exact Or.inl rfl
        · exact Or.inr (Or.inl rfl)
      · exact Or.inr (Or.inr (Or.inl rfl))
    by_cases hid : id ≠ ""
    · rw [if_pos hid] at hinit
      rcases mem_addName.mp hinit with ⟨h2, _⟩ | rfl
      · exact hbase h2
      · exact Or.inr (Or.inr (Or.inr (Or.inl ⟨hid, rfl⟩)))
    · rw [if_neg hid] at hinit
      exact hbase hinit
  · exact Or.inr (Or.inr (Or.inr (Or.inr ⟨t, ht, htne, p, hp, hsh⟩)))

/-- Completeness: every name of the family described by `Fam` is in the
result of `ExpandTopology`. -/
theorem expand_complete {base : String} {topo : List String} {id : String} {x : Name}
    (hx : Fam base topo id x) : x ∈ ExpandTopology base topo id := by
  simp only [ExpandTopology]
  rw [mem_sortNames]
  have hbareS : Shape base id (newName base "" "" false) := Or.inl rfl
  have hallS : Shape base id (newName base "all" "" true) := Or.inr (Or.inl ⟨"", rfl⟩)
  have hanyS : Shape base id (newName base "any" "" false) := Or.inr (Or.inr (Or.inl ⟨"", rfl⟩))
  have hinit : ∀ y : Name, Shape base id y →
      y ∈ addName (addName (addName [] base "" "" false) base "all" "" true)
        base "any" "" false →
      y ∈ if id ≠ "" then
          addName (addName (addName (addName [] base "" "" false) base "all" "" true)
            base "any" "" false) base "id" id false
        else addName (addName (addName [] base "" "" false) base "all" "" true)
          base "any" "" false := by
    intro y hS hmem
    by_cases hid : id ≠ ""
    · rw [if_pos hid]
      exact addName_preserve hS (Or.inr (Or.inr (Or.inr ⟨hid, rfl⟩))) hmem
    · rwa [if_neg hid]
  rcases hx with rfl | rfl | rfl | ⟨hid, rfl⟩ | ⟨t, ht, htne, p, hp, hsh⟩
  · exact foldl_preserve base id hbareS (hinit _ hbareS
      (addName_preserve hbareS hanyS (addName_preserve hbareS hallS (addName_self _ _ _ _ _))))
  · exact foldl_preserve base id hallS (hinit _ hallS
      (addName_preserve hallS hanyS (addName_self _ _ _ _ _)))
  · exact foldl_preserve base id hanyS (hinit _ hanyS (addName_self _ _ _ _ _))
  · have hidS : Shape base id (newName base "id" id false) := Or.inr (Or.inr (Or.inr ⟨hid, rfl⟩))
    refine foldl_preserve base id hidS ?_
    rw [if_pos hid]
    exact addName_self _ _ _ _ _
  · rcases hsh with rfl | rfl
    · exact (foldl_adds base id ht htne p hp).1
    · exact (foldl_adds base id ht htne p hp).2

/-- No two names in the result share a `Full` name. -/
theorem expand_pairwise_ne {base : String} {topo : List String} {id : String} :
    (ExpandTopology base topo id).Pairwise (fun x y => x.Full ≠ y.Full) := by
  simp only [ExpandTopology]
  refine ((sortNames_perm _).pairwise_iff (fun h => Ne.symm h)).mpr ?_
  apply foldl_pairwise
  by_cases hid : id ≠ ""
  · rw [if_pos hid]
    exact addName_pairwise (addName_pairwise (addName_pairwise (addName_pairwise
      List.Pairwise.nil)))
  · rw [if_neg hid]
    exact addName_pairwise (addName_pairwise (addName_pairwise List.Pairwise.nil))

/-- The result is strictly ascending in the byte-wise order on `Full` names. -/
theorem expand_sorted {base : String} {topo : List String} {id : String} :
    (ExpandTopology base topo id).Pairwise (fun a b => nameLess a b = true) := by
  have h1 : (ExpandTopology base topo id).Pairwise (fun a b => nameLess b a = false) := by
    simp only [ExpandTopology]
    exact sortNames_sorted _
  have h2 := @expand_pairwise_ne base topo id
  refine (h1.and h2).imp ?_
  intro a b ⟨hle, hne⟩
  by_contra hab
  rw [Bool.not_eq_true] at hab
  exact hne (string_data_inj (charListLt_conn hab hle))

/-! ### Prefix helpers -/

theorem shape_full {base id : String} {n : Name} (h : Shape base id n) :
    n.Full = join base n.Extra := by
  rcases h with rfl | ⟨p, rfl⟩ | ⟨p, rfl⟩ | ⟨-, rfl⟩ <;> rw [newName_Full, newName_Extra]

theorem strPrefix_join (b e : String) : strPrefix b (join b e) := by
  unfold strPrefix
  by_cases hb : b = ""
  · subst hb
    rw [join_empty_left]
    exact List.nil_prefix
  · by_cases he : e = ""
    · subst he
      rw [join_empty_right]
    · rw [join_eq_append hb he]
      simp only [string_data_append]
      rw [List.append_assoc]
      exact List.prefix_append _ _

theorem strPrefix_join_iff {b e f : String} (he : e ≠ "") (hf : f ≠ "") :
    strPrefix (join b e) (join b f) ↔ e.data <+: f.data := by
  unfold strPrefix
  by_cases hb : b = ""
  · subst hb
    rw [join_empty_left, join_empty_left]
  · rw [join_eq_append hb he, join_eq_append hb hf]
    simp only [string_data_append]
    rw [List.append_assoc, List.append_assoc, List.prefix_append_right_inj]
    constructor
    · intro h
      exact (List.cons_prefix_cons.mp h).2
    · intro h
      exact List.cons_prefix_cons.mpr ⟨rfl, h⟩

theorem not_strPrefix_join_id_base (b : String) : ¬ strPrefix (join b "id.") (join b "") := by
  intro hp
  rw [join_empty_right] at hp
  unfold strPrefix at hp
  have hle := hp.length_le
  by_cases hb : b = ""
  · subst hb
    rw [join_empty_left] at hle
    exact absurd hle (by decide)
  · rw [join_eq_append hb (by decide)] at hle
    simp only [string_data_append, List.length_append] at hle
    simp at hle
    omega

/-! ### Claim theorems -/

/-- C1: `expand("base", ["a.b"], "id1")` returns exactly the eight descriptors
`base`, `base.all`, `base.all.a`, `base.all.a.b`, `base.any`, `base.any.a`,
`base.any.a.b`, `base.id.id1`, in this ascending order, with exactly the three
`base.all*` descriptors flagged broadcast. -/
theorem c1_expand_base_ab_id1 :
    (ExpandTopology "base" ["a.b"] "id1").map (fun n => (n.Full, n.All)) =
      [("base", false), ("base.all", true), ("base.all.a", true), ("base.all.a.b", true),
       ("base.any", false), ("base.any.a", false), ("base.any.a.b", false),
       ("base.id.id1", false)] := by decide

/-- C2: for every descriptor produced by the expansion, the binder registers
it with subject equal to the descriptor full name, the scope (`Topo`) attached
as metadata, a queue group derived from the instance id (injectively, hence
unique per instance) when the broadcast flag is set, and the shared constant
group `"q"`, independent of the instance id, otherwise. -/
theorem c2_binder_per_descriptor (base : String) (topo : List String) (svcID : String)
    (n : Name) (hn : n ∈ ExpandTopology base topo svcID) :
    (mkRegistration svcID n).subject = n.Full ∧
    (mkRegistration svcID n).topoMeta = n.Topo ∧
    (n.All = true → (mkRegistration svcID n).queueGroup = "id." ++ svcID ∧
      ∀ id₁ id₂ : String, "id." ++ id₁ = "id." ++ id₂ → id₁ = id₂) ∧
    (n.All = false → ∀ otherID : String, (mkRegistration otherID n).queueGroup = "q") := by
  refine ⟨rfl, rfl, ?_, ?_⟩
  · intro hAll
    refine ⟨by simp [mkRegistration, hAll], ?_⟩
    intro i₁ i₂ h
    have hd := congrArg String.data h
    simp only [string_data_append] at hd
    exact string_data_inj (List.append_cancel_left hd)
  · intro hAll otherID
    simp [mkRegistration, hAll]

theorem c2_binder_per_descriptor_witness :
    (mkRegistration "id1" ⟨"base.all", "base", "all", "", true⟩).queueGroup = "id." ++ "id1" ∧
    (mkRegistration "id1" ⟨"base.any", "base", "any", "", false⟩).queueGroup = "q" :=
  ⟨((c2_binder_per_descriptor "base" ["a.b"] "id1" _ (by decide)).2.2.1 rfl).1,
   (c2_binder_per_descriptor "base" ["a.b"] "id1" _ (by decide)).2.2.2 rfl "id1"⟩

/-- C3: if the bus accepts every registration before `bad` and rejects `bad`
with error `e`, the binding loop attempts exactly the registrations up to and
including `bad` (none after it), reports the ones before `bad` as created
(no rollback), and returns the bus error `e` unchanged. -/
theorem c3_bind_abort {ε : Type} (sub : Registration → Except ε Unit) (svcID : String)
    (pre : List Name) (bad : Name) (post : List Name) (e : ε)
    (hpre : ∀ n ∈ pre, sub (mkRegistration svcID n) = Except.ok ())
    (hbad : sub (mkRegistration svcID bad) = Except.error e) :
    addEndpoints sub svcID (pre ++ bad :: post) =
      (pre.map (mkRegistration svcID) ++ [mkRegistration svcID bad],
       pre.map (mkRegistration svcID), some e) := by
  induction pre with
  | nil =>
    simp only [List.nil_append, List.map_nil, addEndpoints, hbad]
  | cons n ns ih =>
    have hn : sub (mkRegistration svcID n) = Except.ok () := hpre n (List.mem_cons_self n ns)
    have ih' := ih (fun m hm => hpre m (List.mem_cons_of_mem n hm))
    simp only [List.cons_append, List.map_cons, addEndpoints, hn, List.append_eq, ih']

theorem c3_bind_abort_witness :
    addEndpoints
      (fun r => if r.subject = "base.any" then Except.error "boom" else Except.ok ())
      "x" [⟨"base", "base", "", "", false⟩, ⟨"base.all", "base", "all", "", true⟩,
        ⟨"base.any", "base", "any", "", false⟩] =
      ([mkRegistration "x" ⟨"base", "base", "", "", false⟩,
        mkRegistration "x" ⟨"base.all", "base", "all", "", true⟩,
        mkRegistration "x" ⟨"base.any", "base", "any", "", false⟩],
       [mkRegistration "x" ⟨"base", "base", "", "", false⟩,
        mkRegistration "x" ⟨"base.all", "base", "all", "", true⟩],
       some "boom") := by
  have h := c3_bind_abort
    (fun r => if r.subject = "base.any" then Except.error "boom" else Except.ok ())
    "x" [⟨"base", "base", "", "", false⟩, ⟨"base.all", "base", "all", "", true⟩]
    ⟨"base.any", "base", "any", "", false⟩ [] "boom"
    (by intro n hn; fin_cases hn <;> rfl) rfl
  simpa using h

theorem id_dot_not_prefix_all (p : String) :
    ¬ (("id." : String).data <+: (join "all" p).data) := by
  intro hp
  rw [join_all_data] at hp
  have h := List.cons_prefix_cons.mp
    (show ('i' :: ('d' :: ('.' :: ([] : List Char)))) <+: _ from hp)
  exact absurd h.1 (by decide)

theorem id_dot_not_prefix_any (p : String) :
    ¬ (("id." : String).data <+: (join "any" p).data) := by
  intro hp
  rw [join_any_data] at hp
  have h := List.cons_prefix_cons.mp
    (show ('i' :: ('d' :: ('.' :: ([] : List Char)))) <+: _ from hp)
  exact absurd h.1 (by decide)

/-- C4 (amended): for every non-empty label `t`, the result contains, for each
iterated prefix `p` of `t`, the broadcast descriptor `base.all.<p>` and the
non-broadcast descriptor `base.any.<p>`, both with scope `p`; every descriptor
in the result is either unscoped, the id-targeted descriptor (whose scope is
the instance id), or scoped to an iterated prefix of some non-empty label of
the input; and empty labels contribute nothing. -/
theorem c4_prefix_scopes (base : String) (topo : List String) (id : String) :
    (∀ t ∈ topo, t ≠ "" → ∀ p ∈ iterPrefixes t,
      (∃ n ∈ ExpandTopology base topo id,
        n = newName base "all" p true ∧ n.All = true ∧ n.Topo = p) ∧
      (∃ n ∈ ExpandTopology base topo id,
        n = newName base "any" p false ∧ n.All = false ∧ n.Topo = p)) ∧
    (∀ n ∈ ExpandTopology base topo id,
      n.Topo = "" ∨ (id ≠ "" ∧ n = newName base "id" id false ∧ n.Topo = id) ∨
      ∃ t ∈ topo, t ≠ "" ∧ n.Topo ∈ iterPrefixes t) ∧
    ExpandTopology base ("" :: topo) id = ExpandTopology base topo id := by
  refine ⟨?_, ?_, rfl⟩
  · intro t ht htne p hp
    constructor
    · exact ⟨newName base "all" p true,
        expand_complete (Or.inr (Or.inr (Or.inr (Or.inr ⟨t, ht, htne, p, hp, Or.inl rfl⟩)))),
        rfl, rfl, rfl⟩
    · exact ⟨newName base "any" p false,
        expand_complete (Or.inr (Or.inr (Or.inr (Or.inr ⟨t, ht, htne, p, hp, Or.inr rfl⟩)))),
        rfl, rfl, rfl⟩
  · intro n hn
    rcases expand_sound hn with rfl | rfl | rfl | ⟨hid, rfl⟩ | ⟨t, ht, htne, p, hp, rfl | rfl⟩
    · exact Or.inl rfl
    · exact Or.inl rfl
    · exact Or.inl rfl
    · exact Or.inr (Or.inl ⟨hid, rfl, rfl⟩)
    · exact Or.inr (Or.inr ⟨t, ht, htne, hp⟩)
    · exact Or.inr (Or.inr ⟨t, ht, htne, hp⟩)

/-- C4 counterexample: with input labels `["a.b", "b"]` the result contains a
descriptor (namely `base.all.b`) whose scope `"b"` is a substring of the label
`"a.b"` but is not one of its iterated prefixes `"a.b"`, `"a"` — so, as
stated, "no descriptor scoped to any other substring of t" is false. -/
theorem c4_counterexample :
    ∃ n, n ∈ ExpandTopology "base" ["a.b", "b"] "" ∧ n.Topo ≠ "" ∧
      n.Topo.data <:+: ("a.b" : String).data ∧ n.Topo ≠ "a.b" ∧ n.Topo ≠ "a" :=
  ⟨⟨"base.all.b", "base", "all.b", "b", true⟩, by decide, by decide,
    ⟨['a', '.'], [], rfl⟩, by decide, by decide⟩

theorem c4_prefix_scopes_witness :
    (∃ n ∈ ExpandTopology "base" ["a.b"] "", n = newName "base" "all" "a" true ∧
      n.All = true ∧ n.Topo = "a") ∧
    ExpandTopology "base" ("" :: ["a.b"]) "" = ExpandTopology "base" ["a.b"] "" :=
  ⟨((c4_prefix_scopes "base" ["a.b"] "").1 "a.b" (by decide) (by decide) "a" (by decide)).1,
   (c4_prefix_scopes "base" ["a.b"] "").2.2⟩

/-- C5: for a valid base (non-empty, no leading or trailing separator), every
descriptor's full name begins with the base, no two descriptors share a full
name, and the list is strictly ascending in the byte-wise order on full
names. -/
theorem c5_wellformed_output (base : String) (topo : List String) (id : String)
    (hb : base ≠ "") (hlead : base.data.head? ≠ some '.')
    (htrail : base.data.getLast? ≠ some '.') :
    (∀ n ∈ ExpandTopology base topo id, strPrefix base n.Full) ∧
    (ExpandTopology base topo id).Pairwise (fun a b => a.Full ≠ b.Full) ∧
    (ExpandTopology base topo id).Pairwise (fun a b => nameLess a b = true) := by
  refine ⟨?_, expand_pairwise_ne, expand_sorted⟩
  intro n hn
  rw [shape_full (Fam.shape (expand_sound hn))]
  exact strPrefix_join base n.Extra

theorem c5_wellformed_output_witness :
    strPrefix "base" (Name.mk "base.all.a" "base" "all.a" "a" true).Full :=
  (c5_wellformed_output "base" ["a.b", "a"] "x" (by decide) (by decide) (by decide)).1
    _ (by decide)

/-- C6: when the instance id is empty the result holds no descriptor whose
full name starts with `base.id.`; when it is non-empty there is exactly one
such descriptor, `base.id.<id>`, and it is non-broadcast. -/
theorem c6_id_targeting (base : String) (topo : List String) (id : String) :
    (id = "" → ∀ n ∈ ExpandTopology base topo id, ¬ strPrefix (join base "id.") n.Full) ∧
    (id ≠ "" → (∃ n ∈ ExpandTopology base topo id,
        n.Full = join base (join "id" id) ∧ n.All = false) ∧
      (∀ n ∈ ExpandTopology base topo id, strPrefix (join base "id.") n.Full →
        n.Full = join base (join "id" id) ∧ n.All = false) ∧
      ∀ n ∈ ExpandTopology base topo id, ∀ m ∈ ExpandTopology base topo id,
        strPrefix (join base "id.") n.Full → strPrefix (join base "id.") m.Full → n = m) := by
  have hcore : ∀ n ∈ ExpandTopology base topo id,
      strPrefix (join base "id.") n.Full → id ≠ "" ∧ n = newName base "id" id false := by
    intro n hn hp
    rcases Fam.shape (expand_sound hn) with rfl | ⟨p, rfl⟩ | ⟨p, rfl⟩ | ⟨hid, rfl⟩
    · rw [newName_Full, join_empty_left] at hp
      exact absurd hp (not_strPrefix_join_id_base base)
    · rw [newName_Full,
        strPrefix_join_iff (by decide) (join_all_ne_empty p)] at hp
      exact absurd hp (id_dot_not_prefix_all p)
    · rw [newName_Full,
        strPrefix_join_iff (by decide) (join_any_ne_empty p)] at hp
      exact absurd hp (id_dot_not_prefix_any p)
    · exact ⟨hid, rfl⟩
  refine ⟨?_, ?_⟩
  · intro hid n hn hp
    exact (hcore n hn hp).1 hid
  · intro hid
    refine ⟨⟨newName base "id" id false,
        expand_complete (Or.inr (Or.inr (Or.inr (Or.inl ⟨hid, rfl⟩)))),
        by rw [newName_Full], rfl⟩, ?_, ?_⟩
    · intro n hn hp
      obtain ⟨-, rfl⟩ := hcore n hn hp
      exact ⟨by rw [newName_Full], rfl⟩
    · intro n hn m hm hpn hpm
      obtain ⟨-, rfl⟩ := hcore n hn hpn
      obtain ⟨-, h⟩ := hcore m hm hpm
      rw [h]

theorem c6_id_targeting_witness :
    (⟨"base.id.id1", "base", "id.id1", "id1", false⟩ : Name).Full =
      join "base" (join "id" "id1") ∧
    (⟨"base.id.id1", "base", "id.id1", "id1", false⟩ : Name).All = false :=
  ((c6_id_targeting "base" [] "id1").2 (by decide)).2.1 _ (by decide)
    ⟨['i', 'd', '1'], rfl⟩

/-- C7 counterexample: called with the malformed base `"base."` (trailing
separator), the expansion does not fail and constructs descriptors anyway —
three of them, including one with the malformed subject `"base..all"` — so
the claimed fail-fast input validation does not exist in the code. -/
theorem c7_counterexample :
    (ExpandTopology "base." [] "").length = 3 ∧
    ∃ n, n ∈ ExpandTopology "base." [] "" ∧ n.Full = "base..all" :=
  ⟨by decide, ⟨"base..all", "base.", "all", "", true⟩, by decide, rfl⟩

/-- C7 (amended): the expansion performs no input validation at all — for
every base, malformed or not, it totally constructs its result, always
containing the bare, `all` and `any` descriptors with the base embedded
verbatim; well-formedness of the base is a caller precondition (the doc
comment: the base label MUST NOT end with a dot). -/
theorem c7_no_validation (base : String) (topo : List String) (id : String) :
    newName base "" "" false ∈ ExpandTopology base topo id ∧
    newName base "all" "" true ∈ ExpandTopology base topo id ∧
    newName base "any" "" false ∈ ExpandTopology base topo id :=
  ⟨expand_complete (Or.inl rfl), expand_complete (Or.inr (Or.inl rfl)),
   expand_complete (Or.inr (Or.inr (Or.inl rfl)))⟩

/-- C8 counterexample: the `base.id.<instanceId>` descriptor does not carry an
empty scope — its `Topo` field is the instance id. -/
theorem c8_counterexample :
    ∃ n, n ∈ ExpandTopology "base" [] "id1" ∧ n.Full = "base.id.id1" ∧ n.Topo ≠ "" :=
  ⟨⟨"base.id.id1", "base", "id.id1", "id1", false⟩, by decide, rfl, by decide⟩

/-- C8 (amended): the scope field is empty for the bare, `base.all` and
`base.any` descriptors, equals the targeted topology prefix for the
topology-scoped descriptors (the full name reconstructs from it), and equals
the instance id — not the empty string — for the `base.id.<instanceId>`
descriptor. -/
theorem c8_scope_field (base : String) (topo : List String) (id : String) :
    ∀ n ∈ ExpandTopology base topo id,
      ((n.Full = join base "" ∨ n.Full = join base "all" ∨ n.Full = join base "any") →
        n.Topo = "") ∧
      (id ≠ "" → n.Full = join base (join "id" id) → n.Topo = id) ∧
      (n.Topo ≠ "" → n.All = true → n.Full = join base (join "all" n.Topo)) ∧
      (n.Topo ≠ "" → n.All = false →
        n.Full = join base (join "any" n.Topo) ∨
          (id ≠ "" ∧ n.Full = join base (join "id" id) ∧ n.Topo = id)) := by
  intro n hn
  have hshape := Fam.shape (expand_sound hn)
  refine ⟨?_, ?_, ?_, ?_⟩
  · intro hfull
    rcases hshape with rfl | ⟨p, rfl⟩ | ⟨p, rfl⟩ | ⟨hid, rfl⟩
    · rfl
    · rw [newName_Full] at hfull
      rw [newName_Topo]
      rcases hfull with h | h | h
      · exact absurd (join_right_inj h) (join_all_ne_empty p)
      · have h2 : join "all" p = join "all" "" := by
          rw [join_empty_right]; exact join_right_inj h
        exact join_all_inj h2
      · have h2 : join "all" p = join "any" "" := by
          rw [join_empty_right]; exact join_right_inj h
        exact absurd h2 (join_all_ne_any p "")
    · rw [newName_Full] at hfull
      rw [newName_Topo]
      rcases hfull with h | h | h
      · exact absurd (join_right_inj h) (join_any_ne_empty p)
      · have h2 : join "all" "" = join "any" p := by
          rw [join_empty_right]; exact (join_right_inj h).symm
        exact absurd h2 (join_all_ne_any "" p)
      · have h2 : join "any" p = join "any" "" := by
          rw [join_empty_right]; exact join_right_inj h
        exact join_any_inj h2
    · rw [newName_Full] at hfull
      rcases hfull with h | h | h
      · exact absurd (join_right_inj h) (join_id_ne_empty hid)
      · have h2 : join "all" "" = join "id" id := by
          rw [join_empty_right]; exact (join_right_inj h).symm
        exact absurd h2 (join_all_ne_id hid)
      · have h2 : join "any" "" = join "id" id := by
          rw [join_empty_right]; exact (join_right_inj h).symm
        exact absurd h2 (join_any_ne_id hid)
  · intro hid hfull
    rcases hshape with rfl | ⟨p, rfl⟩ | ⟨p, rfl⟩ | ⟨hid', rfl⟩
    · rw [newName_Full] at hfull
      have h2 := join_right_inj hfull
      rw [join_empty_left] at h2
      exact absurd h2.symm (join_id_ne_empty hid)
    · rw [newName_Full] at hfull
      exact absurd (join_right_inj hfull) (join_all_ne_id hid)
    · rw [newName_Full] at hfull
      exact absurd (join_right_inj hfull) (join_any_ne_id hid)
    · rfl
  · intro htne hall
    rcases hshape with rfl | ⟨p, rfl⟩ | ⟨p, rfl⟩ | ⟨hid, rfl⟩
    · exact absurd rfl htne
    · rw [newName_Full, newName_Topo]
    · exact Bool.noConfusion hall
    · exact Bool.noConfusion hall
  · intro htne hfalse
    rcases hshape with rfl | ⟨p, rfl⟩ | ⟨p, rfl⟩ | ⟨hid, rfl⟩
    · exact absurd rfl htne
    · exact Bool.noConfusion hfalse
    · left
      rw [newName_Full, newName_Topo]
    · exact Or.inr ⟨hid, by rw [newName_Full], rfl⟩

theorem c8_scope_field_witness :
    (⟨"base.id.id1", "base", "id.id1", "id1", false⟩ : Name).Topo = "id1" :=
  (c8_scope_field "base" [] "id1" _ (by decide)).2.1 (by decide) (by decide)

/-- C9: the expansion is total — it returns a (non-empty) descriptor list for
every input with no error case — and the per-label loop terminates because
removing the trailing dot-delimited segment strictly shortens the label. -/
theorem c9_expansion_total (base : String) (topo : List String) (id : String) :
    ExpandTopology base topo id ≠ [] ∧
    ∀ t t' : String, dropLastSeg t = some t' → t'.length < t.length := by
  constructor
  · intro h
    have hmem := expand_complete (Or.inl rfl :
      Fam base topo id (newName base "" "" false))
    rw [h] at hmem
    cases hmem
  · intro t t' ht
    exact dropLastSeg_length ht

theorem c9_expansion_total_witness :
    ExpandTopology "x" [] "" ≠ [] ∧ ("a" : String).length < ("a.b" : String).length :=
  ⟨(c9_expansion_total "x" [] "").1,
   (c9_expansion_total "x" [] "").2 "a.b" "a" (by decide)⟩

/-- C10: a returned descriptor is broadcast exactly when its suffix after the
base (`Extra`) is the literal token `"all"` or begins with `"all."` — so no
`any`, `id` or bare-base subject is ever flagged broadcast. -/
theorem c10_broadcast_iff_all (base : String) (topo : List String) (id : String) :
    ∀ n ∈ ExpandTopology base topo id,
      n.All = true ↔ (n.Extra = "all" ∨ strPrefix "all." n.Extra) := by
  intro n hn
  rcases Fam.shape (expand_sound hn) with rfl | ⟨p, rfl⟩ | ⟨p, rfl⟩ | ⟨hid, rfl⟩
  · refine iff_of_false (fun h => Bool.noConfusion h) ?_
    intro h
    rw [newName_Extra, join_empty_left] at h
    rcases h with h | h
    · exact absurd h (by decide)
    · unfold strPrefix at h
      exact absurd h.length_le (by decide)
  · refine iff_of_true rfl ?_
    rw [newName_Extra]
    by_cases hp : p = ""
    · subst hp
      left
      rw [join_empty_right]
    · right
      rw [join_eq_append (by decide) hp]
      exact ⟨p.data, (string_data_append "all." p).symm⟩
  · refine iff_of_false (fun h => Bool.noConfusion h) ?_
    intro h
    rw [newName_Extra] at h
    rcases h with h | h
    · have h2 : join "all" "" = join "any" p := by
        rw [join_empty_right]; exact h.symm
      exact join_all_ne_any "" p h2
    · unfold strPrefix at h
      rw [join_any_data] at h
      have h2 := List.cons_prefix_cons.mp
        (show ('a' :: ('l' :: ('l' :: ('.' :: ([] : List Char))))) <+: _ from h)
      have h3 := List.cons_prefix_cons.mp h2.2
      exact absurd h3.1 (by decide)
  · refine iff_of_false (fun h => Bool.noConfusion h) ?_
    intro h
    rw [newName_Extra] at h
    rcases h with h | h
    · have h2 : join "all" "" = join "id" id := by
        rw [join_empty_right]; exact h.symm
      exact join_all_ne_id hid h2
    · unfold strPrefix at h
      rw [join_id_data hid] at h
      have h2 := List.cons_prefix_cons.mp
        (show ('a' :: ('l' :: ('l' :: ('.' :: ([] : List Char))))) <+: _ from h)
      exact absurd h2.1 (by decide)

theorem c10_broadcast_iff_all_witness :
    (⟨"base.all.a", "base", "all.a", "a", true⟩ : Name).All = true :=
  (c10_broadcast_iff_all "base" ["a.b"] "x" _ (by decide)).mpr (Or.inr ⟨['a'], rfl⟩)

end Itsy

